import Mathlib

/-!
Shallow embedding of the MlTrackingAPP frontend (Next.js client) in Lean 4,
with theorems checking the natural-language specification against the code.

The TypeScript sources embedded here:
* `src/unnamed/part_000` — the axios API client (`getExperiments`, `API_BASE_URL`);
* `src/unnamed/part_004` — the dashboard page (search filter, sort, pagination);
* `src/frontend/app/experiments/new/page.tsx` — the create-experiment form
  (`handleSubmit`, `handleAddTag`);
* `src/frontend/components/experiments/metrics-chart.tsx` — the metrics chart
  (grouping by `metric_name`, sort by `step`);
* the backend metric summary endpoint is not part of the sources, so it is
  modelled from the spec where a claim needs it.

Strings are Lean `String`s (`jsToLower` / `jsTrim` model the JavaScript
`toLowerCase()` / `trim()`); JavaScript `Array.prototype.sort`,
which is stable by the ECMAScript specification, is modelled by
`List.mergeSort`; timestamps are `Int` epoch values (`new Date(s).getTime()`).
-/

/-- JavaScript `hay.includes(needle)` on the underlying character lists:
`needle` occurs as a contiguous substring of `hay`. -/
def listIncludes (hay needle : List Char) : Bool :=
  match hay with
  | [] => needle.isEmpty
  | _ :: t => needle.isPrefixOf hay || listIncludes t needle

/-- JavaScript `hay.includes(needle)` on `String`. -/
def strIncludes (hay needle : String) : Bool :=
  listIncludes hay.data needle.data

/-- JavaScript `s.toLowerCase()`: every character lowercased.  (Defined by
structural recursion over the character list so that concrete instances
evaluate inside the kernel.) -/
def jsToLower (s : String) : String :=
  ⟨s.data.map Char.toLower⟩

/-- JavaScript `s.trim()`: leading and trailing whitespace removed.
(Defined by structural recursion over the character list so that concrete
instances evaluate inside the kernel.) -/
def jsTrim (s : String) : String :=
  ⟨((s.data.dropWhile Char.isWhitespace).reverse.dropWhile
      Char.isWhitespace).reverse⟩

/-- Case-insensitive substring containment: `needle` occurs in `hay` when
both are lowercased. Used to state the spec's "case-insensitive substring
match". -/
def ciIncludes (hay needle : String) : Bool :=
  strIncludes (jsToLower hay) (jsToLower needle)

/-- `src/unnamed/part_002`: experiment status enum
`'running' | 'completed' | 'failed'`. -/
inductive ExpStatus where
  | running
  | completed
  | failed
deriving DecidableEq, Repr

/-- `src/unnamed/part_002`: the `Experiment` record, restricted to the fields
the dashboard logic reads. `created_at` is the epoch value of
`new Date(created_at).getTime()`; `hyperparameters` is irrelevant to the
claims and omitted. -/
structure Experiment where
  id : String
  name : String
  status : ExpStatus
  tags : List String
  created_at : Int
deriving DecidableEq, Repr

/- ### `src/unnamed/part_000` — the axios API client -/

/-- The query parameters of a `GET /experiments` request: `skip` and `limit`
always, `status` optionally. -/
structure ListParams where
  skip : Nat
  limit : Nat
  status : Option String
deriving DecidableEq, Repr

/-- `src/unnamed/part_000` lines 22–32, `getExperiments`: the params object
built for `GET /experiments`.  `skip = (page - 1) * 20`, `limit = 20`; the
`status` key is added only when `status` is a truthy string different from
`'all'` (an absent argument is `none`, and the empty string is falsy). -/
def getExperimentsParams (page : Nat) (status : Option String) : ListParams :=
  { skip := (page - 1) * 20
    limit := 20
    status :=
      match status with
      | none => none
      | some s => if s ≠ "" ∧ s ≠ "all" then some s else none }

/-- Offset pagination on the server side, as the spec describes it:
a request with `skip` and `limit` returns `limit` items of the store
starting after the first `skip`, in store order. -/
def serverPage (store : List Experiment) (p : ListParams) : List Experiment :=
  (store.drop p.skip).take p.limit

/-- `src/unnamed/part_000` line 12:
`process.env.NEXT_PUBLIC_API_URL || 'http://localhost:8000'`.
The environment variable is `none` when unset; `||` takes the right operand
exactly when the left is falsy, and the only falsy string is `""`. -/
def API_BASE_URL (env : Option String) : String :=
  match env with
  | none => "http://localhost:8000"
  | some s => if s = "" then "http://localhost:8000" else s

/- ### `src/unnamed/part_004` — dashboard search, sort, pagination -/

/-- The search predicate of `filteredExperiments`
(`src/unnamed/part_004` lines 52–56), with `query` the already-lowercased
search text: lowercased `name` contains `query`, or `id.toString()` contains
`query` (the id itself is not lowercased), or some lowercased tag contains
`query`. -/
def expMatches (query : String) (e : Experiment) : Bool :=
  strIncludes (jsToLower e.name) query ||
  strIncludes e.id query ||
  e.tags.any (fun tag => strIncludes (jsToLower tag) query)

/-- `src/unnamed/part_004` lines 48–57: the search step of
`filteredExperiments`.  When `searchQuery.trim()` is truthy the list is
filtered by `expMatches` with the lowercased query, otherwise it is returned
unchanged. -/
def searchFilter (experiments : List Experiment) (searchQuery : String) :
    List Experiment :=
  if jsTrim searchQuery ≠ "" then
    experiments.filter (expMatches (jsToLower searchQuery))
  else experiments

/-- `src/unnamed/part_004` line 24: the sort field union
`'date' | 'status' | 'name'`. -/
inductive SortField where
  | date
  | status
  | name
deriving DecidableEq, Repr

/-- `src/unnamed/part_004` line 25: the sort order union `'asc' | 'desc'`. -/
inductive SortOrder where
  | asc
  | desc
deriving DecidableEq, Repr

/-- Model of JavaScript `a.localeCompare(b)`: negative, zero or positive
according to the lexicographic order on strings. -/
def localeCompare (a b : String) : Int :=
  if a < b then -1 else if b < a then 1 else 0

/-- `src/unnamed/part_004` line 68: `'running' | 'completed' | 'failed'` as
the string the code compares with `localeCompare`. -/
def statusString : ExpStatus → String
  | .running => "running"
  | .completed => "completed"
  | .failed => "failed"

/-- `src/unnamed/part_004` lines 61–73: the `comparison` value computed in
the sort callback for a given `sortBy`. -/
def fieldComparison (sortBy : SortField) (a b : Experiment) : Int :=
  match sortBy with
  | .date => a.created_at - b.created_at
  | .status => localeCompare (statusString a.status) (statusString b.status)
  | .name => localeCompare a.name b.name

/-- `src/unnamed/part_004` line 75: the comparator passed to `sort`,
`sortOrder === 'asc' ? comparison : -comparison`. -/
def sortComparator (sortBy : SortField) (sortOrder : SortOrder)
    (a b : Experiment) : Int :=
  match sortOrder with
  | .asc => fieldComparison sortBy a b
  | .desc => -(fieldComparison sortBy a b)

/-- The non-positive-comparator relation under which the sorted output is
ordered. -/
def sortLE (sortBy : SortField) (sortOrder : SortOrder)
    (a b : Experiment) : Bool :=
  sortComparator sortBy sortOrder a b ≤ 0

/-- `src/unnamed/part_004` lines 60–76: `[...filtered].sort(comparator)`.
`Array.prototype.sort` is stable (ECMAScript 2019), so it is modelled by
`List.mergeSort` with the relation `comparator a b ≤ 0`. -/
def sortExperiments (sortBy : SortField) (sortOrder : SortOrder)
    (l : List Experiment) : List Experiment :=
  l.mergeSort (sortLE sortBy sortOrder)

/-- `src/unnamed/part_004` lines 45–79, `filteredExperiments`: search filter
then sort. -/
def filteredExperiments (experiments : List Experiment)
    (searchQuery : String) (sortBy : SortField) (sortOrder : SortOrder) :
    List Experiment :=
  sortExperiments sortBy sortOrder (searchFilter experiments searchQuery)

/- ### `src/unnamed/part_004` lines 21, 236–252 — dashboard pagination -/

/-- `src/unnamed/part_004` line 21: `useState(1)` — the initial page. -/
def initialPage : Nat := 1

/-- `src/unnamed/part_004` line 239: the Previous button's click action,
`setPage(p => Math.max(1, p - 1))`. -/
def prevPage (p : Nat) : Nat := max 1 (p - 1)

/-- `src/unnamed/part_004` line 247: the Next button's click action,
`setPage(p => p + 1)`. -/
def nextPage (p : Nat) : Nat := p + 1

/-- `src/unnamed/part_004` line 240: `disabled={page === 1}`. -/
def prevDisabled (p : Nat) : Bool := p == 1

/-- `src/unnamed/part_004` line 248:
`disabled={!experiments || experiments.length < 20}`; `experiments` is the
fetched list, absent (`none`) until a query succeeds. -/
def nextDisabled (experiments : Option (List Experiment)) : Bool :=
  match experiments with
  | none => true
  | some l => l.length < 20

/-- The page values the dashboard can reach: it starts at `initialPage`, and
each click of an enabled Previous / Next button moves it by the
corresponding action (a disabled button fires no click handler). -/
inductive PageReachable : Nat → Prop where
  | init : PageReachable initialPage
  | prev {p} : PageReachable p → prevDisabled p = false →
      PageReachable (prevPage p)
  | next {p} (experiments : Option (List Experiment)) :
      PageReachable p → nextDisabled experiments = false →
      PageReachable (nextPage p)

/- ### `src/frontend/app/experiments/new/page.tsx` — create-experiment form -/

/-- The observable outcome of one `handleSubmit` call: either an inline
error message is set and no API call happens, or `mutation.mutate` is called
with a create request. `J` is the type of parsed JSON values. -/
inductive SubmitAction (J : Type) where
  | inlineError (msg : String)
  | create (name : String) (hyperparameters : J) (tags : List String)
deriving DecidableEq, Repr

/-- `src/frontend/app/experiments/new/page.tsx` lines 33–57, `handleSubmit`.
`parseJSON` models `JSON.parse` (`none` = throws); `emptyObj` models the
literal `{}` initialising `parsedParams`.  An empty trimmed name errors; a
hyperparameters text that trims to something non-empty is parsed, erroring
on failure; otherwise `mutation.mutate` receives the trimmed name, the
parsed (or default empty) object, and the current tags. -/
def handleSubmit {J : Type} (parseJSON : String → Option J) (emptyObj : J)
    (name hyperparameters : String) (tags : List String) : SubmitAction J :=
  if jsTrim name = "" then .inlineError "Experiment name is required"
  else if jsTrim hyperparameters ≠ "" then
    match parseJSON hyperparameters with
    | none => .inlineError "Invalid JSON format for hyperparameters"
    | some parsed => .create (jsTrim name) parsed tags
  else .create (jsTrim name) emptyObj tags

/-- A parse function that agrees with `JSON.parse` on whitespace-only input:
`JSON.parse` throws on a string with no token, so any faithful model returns
`none` there.  (Its behaviour elsewhere is irrelevant to the statements that
use it.) -/
def whitespaceRejectingParse : String → Option Unit :=
  fun s => if jsTrim s = "" then none else some ()

/-- `src/frontend/app/experiments/new/page.tsx` lines 59–64, `handleAddTag`:
the trimmed tag is appended when it is non-empty and not already present;
otherwise the list is unchanged. -/
def handleAddTag (tags : List String) (newTag : String) : List String :=
  if jsTrim newTag ≠ "" ∧ jsTrim newTag ∉ tags then tags ++ [jsTrim newTag]
  else tags

/-- `src/frontend/app/experiments/new/page.tsx` lines 66–68,
`handleRemoveTag`: `tags.filter(tag => tag !== tagToRemove)`. -/
def handleRemoveTag (tags : List String) (tagToRemove : String) :
    List String :=
  tags.filter (fun tag => tag ≠ tagToRemove)

/-- The tag lists the create-experiment form can hold: it starts empty
(`useState<string[]>([])`) and is only changed by `handleAddTag` and
`handleRemoveTag`. -/
inductive TagsReachable : List String → Prop where
  | init : TagsReachable []
  | add {tags} (newTag : String) : TagsReachable tags →
      TagsReachable (handleAddTag tags newTag)
  | remove {tags} (tagToRemove : String) : TagsReachable tags →
      TagsReachable (handleRemoveTag tags tagToRemove)

/- ### `src/frontend/components/experiments/metrics-chart.tsx` -/

/-- `src/unnamed/part_002`: the `Metric` record (values as exact rationals,
timestamps irrelevant to the chart and omitted). -/
structure Metric where
  id : Nat
  experiment_id : String
  step : Int
  metric_name : String
  value : Rat
deriving DecidableEq, Repr

/-- `metrics-chart.tsx` lines 46–52: one step of the `reduce` that groups
metrics by `metric_name`.  A JavaScript object keeps string keys in
insertion order, so the accumulator is an association list: an existing
group gets the metric appended, a new name starts a new group at the end. -/
def addToGroups (acc : List (String × List Metric)) (m : Metric) :
    List (String × List Metric) :=
  if acc.any (fun p => p.1 == m.metric_name) then
    acc.map (fun p =>
      if p.1 = m.metric_name then (p.1, p.2 ++ [m]) else p)
  else acc ++ [(m.metric_name, [m])]

/-- `metrics-chart.tsx` lines 46–52, `metricsByName`: the grouping of the
metrics list by `metric_name`. -/
def metricsByName (metrics : List Metric) : List (String × List Metric) :=
  metrics.foldl addToGroups []

/-- The keys of a grouping. -/
def groupKeys (groups : List (String × List Metric)) : List String :=
  groups.map (·.1)

/-- The group stored under `name`, `[]` when absent. -/
def groupOf (name : String) (groups : List (String × List Metric)) :
    List Metric :=
  ((groups.find? (fun p => p.1 == name)).map (·.2)).getD []

/-- The chart's step comparator `(a, b) => a.step - b.step` as the boolean
relation `a.step - b.step ≤ 0` under which the sorted output is ordered. -/
def stepLE (a b : Metric) : Bool :=
  a.step - b.step ≤ 0

/-- `metrics-chart.tsx` lines 60–61: `metricData.sort((a, b) => a.step -
b.step)` — a stable ascending sort by `step`. -/
def sortByStep (metricData : List Metric) : List Metric :=
  metricData.mergeSort stepLE

/-- `metrics-chart.tsx` lines 60–65: the `chartData` handed to the chart for
one group — the group sorted by step, projected to (step, value) points. -/
def chartData (metricData : List Metric) : List (Int × Rat) :=
  (sortByStep metricData).map (fun m => (m.step, m.value))

/- ### Metric summarize endpoint (backend, not in `src/`) -/

/-- One logged metric point as sent to the log endpoint:
`{step, metric_name, value}`. -/
structure MetricPoint where
  step : Int
  metric_name : String
  value : Rat
deriving DecidableEq, Repr

/-- `src/unnamed/part_002`: the `MetricsSummary` record. -/
structure MetricsSummary where
  metric_name : String
  min : Rat
  max : Rat
  avg : Rat
  latest : Rat
deriving DecidableEq, Repr

/-- The points logged for one `metric_name`, in insertion (log) order. -/
def pointsFor (logged : List MetricPoint) (name : String) :
    List MetricPoint :=
  logged.filter (fun p => p.metric_name = name)

/-- Modelled from the spec: the running latest-by-step choice of the
summarize endpoint (the backend is not under `src/`).  "latest is defined
as the value at the highest step seen for that metric_name; ties broken by
insertion order (last logged wins)": scanning in log order, a point at a
step at least as high as the current best replaces it. -/
def latestPoint (acc : MetricPoint) (l : List MetricPoint) : MetricPoint :=
  l.foldl (fun best q => if best.step ≤ q.step then q else best) acc

/-- Modelled from the spec: `summarize(experiment_id)` produces, per
`metric_name` with at least one point, the aggregate
`{min, max, avg, latest-by-step}` of that metric's values (the backend is
not under `src/`). -/
def summarize (logged : List MetricPoint) (name : String) :
    Option MetricsSummary :=
  match pointsFor logged name with
  | [] => none
  | p :: rest =>
    some { metric_name := name
           min := rest.foldl (fun m q => Min.min m q.value) p.value
           max := rest.foldl (fun m q => Max.max m q.value) p.value
           avg := ((p :: rest).map (·.value)).sum / ((p :: rest).length : Rat)
           latest := (latestPoint p rest).value }

/-- The highest step among `acc :: l`. -/
def maxStep (acc : MetricPoint) (l : List MetricPoint) : Int :=
  l.foldl (fun m q => Max.max m q.step) acc.step

/-- The spec's declarative description of `latest`: among `acc :: l` (log
order), the last point whose step attains the highest step — "the value at
the highest step seen …; ties broken by insertion order (last logged
wins)". -/
def lastAtMaxStep (acc : MetricPoint) (l : List MetricPoint) : MetricPoint :=
  (((acc :: l).reverse).find? (fun q => decide (maxStep acc l ≤ q.step))).getD acc

/- ### Sample data used by witnesses -/

/-- A sample experiment for concrete instantiations. -/
def expA : Experiment :=
  { id := "e1", name := "resnet", status := .running, tags := ["cv"],
    created_at := 100 }

/-- A second sample experiment. -/
def expB : Experiment :=
  { id := "e2", name := "bert", status := .completed, tags := [],
    created_at := 50 }

/- ### C1 — offset pagination of `getExperiments` -/

/-- C1: for every page number `p ≥ 1` and every status filter, the client's
`getExperiments` requests an offset page with `skip = (p - 1) * 20` and
`limit = 20`; consequently, page 2 against a store split as
`a ++ b ++ rest` with `|a| = |b| = 20` returns exactly `b` — items 21–40 in
store order. -/
theorem c1_offset_pagination (page : Nat) (hpage : 1 ≤ page)
    (status : Option String) :
    (getExperimentsParams page status).skip = (page - 1) * 20 ∧
    (getExperimentsParams page status).limit = 20 ∧
    ∀ (a b rest : List Experiment), a.length = 20 → b.length = 20 →
      serverPage (a ++ b ++ rest) (getExperimentsParams 2 status) = b := by
  refine ⟨rfl, rfl, ?_⟩
  intro a b rest ha hb
  have hskip : (getExperimentsParams 2 status).skip = 20 := rfl
  have hlim : (getExperimentsParams 2 status).limit = 20 := rfl
  rw [serverPage, hskip, hlim, List.append_assoc, List.drop_left' ha,
    List.take_left' hb]

/-- Witness for C1 at page 2 with a concrete 40-element store. -/
theorem c1_offset_pagination_witness :
    serverPage (List.replicate 20 expA ++ List.replicate 20 expB ++ [])
      (getExperimentsParams 2 none) = List.replicate 20 expB :=
  (c1_offset_pagination 2 (by decide) none).2.2 _ _ _
    (by simp) (by simp)

/- ### C7 — API base URL -/

/-- C7: the API base equals `NEXT_PUBLIC_API_URL` when that variable is set
and non-empty, and `http://localhost:8000` when it is unset or empty. -/
theorem c7_api_base_url :
    (∀ s : String, s ≠ "" → API_BASE_URL (some s) = s) ∧
    API_BASE_URL none = "http://localhost:8000" ∧
    API_BASE_URL (some "") = "http://localhost:8000" := by
  refine ⟨fun s hs => ?_, rfl, rfl⟩
  simp [API_BASE_URL, hs]

/-- Witness for C7 at a concrete non-empty environment value. -/
theorem c7_api_base_url_witness :
    API_BASE_URL (some "https://api.example.com") = "https://api.example.com" :=
  c7_api_base_url.1 "https://api.example.com" (by decide)

/- ### C8 — status filter forwarding -/

/-- C8: for every page, when the status argument is absent, empty, or
`"all"`, the request query holds only `skip` and `limit` (no `status`
parameter); any other status string is passed through unchanged. -/
theorem c8_status_forwarding (page : Nat) (status : Option String) :
    ((status = none ∨ status = some "" ∨ status = some "all") →
      (getExperimentsParams page status).status = none) ∧
    (∀ s : String, status = some s → s ≠ "" → s ≠ "all" →
      (getExperimentsParams page status).status = some s) := by
  constructor
  · rintro (rfl | rfl | rfl) <;> simp [getExperimentsParams]
  · rintro s rfl h1 h2
    simp [getExperimentsParams, h1, h2]

/-- Witness for C8: `"all"` is dropped, `"running"` is forwarded. -/
theorem c8_status_forwarding_witness :
    (getExperimentsParams 1 (some "all")).status = none ∧
    (getExperimentsParams 1 (some "running")).status = some "running" :=
  ⟨(c8_status_forwarding 1 (some "all")).1 (Or.inr (Or.inr rfl)),
   (c8_status_forwarding 1 (some "running")).2 "running" rfl
     (by decide) (by decide)⟩

/- ### C10 — the dashboard page number -/

/-- C10: the dashboard's page number is always at least 1: it starts at 1,
the Previous action clamps at 1 (and its button is disabled on page 1, so
an enabled click decrements by exactly one), and the Next action — enabled
only when the fetched page holds a full 20 items — increments by exactly
one. -/
theorem c10_page_at_least_one (p : Nat) (h : PageReachable p) :
    1 ≤ p ∧ initialPage = 1 ∧ 1 ≤ prevPage p ∧
    (prevDisabled p = false → prevPage p = p - 1) ∧
    nextPage p = p + 1 ∧
    (∀ experiments : List Experiment,
      nextDisabled (some experiments) = false → 20 ≤ experiments.length) := by
  have hp : 1 ≤ p := by
    induction h with
    | init => exact Nat.le_refl 1
    | prev _ _ _ => exact Nat.le_max_left 1 _
    | next _ _ _ _ => exact Nat.le_add_left 1 _
  refine ⟨hp, rfl, Nat.le_max_left 1 _, fun hd => ?_, rfl, fun exps hd => ?_⟩
  · have hne : p ≠ 1 := by simpa [prevDisabled] using hd
    have h2 : 2 ≤ p := by omega
    rw [prevPage, Nat.max_eq_right (by omega)]
  · have : ¬ exps.length < 20 := by simpa [nextDisabled] using hd
    omega

/-- Witness for C10 at page 2, reached by a Next click from a full page. -/
theorem c10_page_at_least_one_witness : 1 ≤ 2 ∧ prevPage 2 = 1 := by
  have hfull : nextDisabled (some (List.replicate 20 expA)) = false := by
    simp [nextDisabled]
  have h2 : PageReachable 2 :=
    PageReachable.next (some (List.replicate 20 expA)) PageReachable.init hfull
  have inv := c10_page_at_least_one 2 h2
  exact ⟨inv.1, inv.2.2.2.1 (by decide)⟩

/- ### C9 — the create-form tag list -/

/-- C9: any tag list the create-experiment form can reach has no duplicates
and no blank entries; adding appends the trimmed tag, and a tag whose
trimmed form is empty or already present leaves the list unchanged. -/
theorem c9_tags_invariant (tags : List String) (h : TagsReachable tags) :
    tags.Nodup ∧ (∀ t ∈ tags, t ≠ "") ∧
    (∀ newTag : String, jsTrim newTag = "" ∨ jsTrim newTag ∈ tags →
      handleAddTag tags newTag = tags) ∧
    (∀ newTag : String, jsTrim newTag ≠ "" → jsTrim newTag ∉ tags →
      handleAddTag tags newTag = tags ++ [jsTrim newTag]) := by
  have main : tags.Nodup ∧ ∀ t ∈ tags, t ≠ "" := by
    induction h with
    | init => exact ⟨List.nodup_nil, by simp⟩
    | add newTag _ ih =>
      rw [handleAddTag]
      split
      · rename_i hc
        refine ⟨?_, ?_⟩
        · rw [List.nodup_append]
          exact ⟨ih.1, List.nodup_singleton _, by
            simp only [List.disjoint_singleton]
            exact hc.2⟩
        · intro t ht
          rcases List.mem_append.mp ht with h1 | h1
          · exact ih.2 t h1
          · rw [List.mem_singleton] at h1
            subst h1
            exact hc.1
      · exact ih
    | remove tagToRemove _ ih =>
      exact ⟨ih.1.filter _, fun t ht => ih.2 t (List.mem_of_mem_filter ht)⟩
  refine ⟨main.1, main.2, fun newTag hcase => ?_, fun newTag h1 h2 => ?_⟩
  · rw [handleAddTag, if_neg]
    push_neg
    intro hne
    rcases hcase with hc | hc
    · exact absurd hc hne
    · exact hc
  · rw [handleAddTag, if_pos ⟨h1, h2⟩]

/-- Witness for C9 on the reachable tag list `["a"]`. -/
theorem c9_tags_invariant_witness :
    (["a"] : List String).Nodup ∧ handleAddTag ["a"] " a " = ["a"] ∧
    handleAddTag ["a"] "b" = ["a", "b"] := by
  have r : TagsReachable ["a"] := by
    have h := TagsReachable.add "a" TagsReachable.init
    rwa [show handleAddTag [] "a" = ["a"] from by decide] at h
  have inv := c9_tags_invariant ["a"] r
  refine ⟨inv.1, inv.2.2.1 " a " (Or.inr (by decide)), ?_⟩
  have h2 := inv.2.2.2 "b" (by decide) (by decide)
  rwa [show jsTrim "b" = "b" from by decide] at h2

/- ### C6 — create-experiment form submission -/

/-- C6 counterexample: a whitespace-only hyperparameters text is non-empty
and is not parseable as JSON (`JSON.parse(" ")` throws, which
`whitespaceRejectingParse` reflects), yet `handleSubmit` does not set an
error — it calls create with the default empty object. -/
theorem c6_counterexample :
    (" " : String) ≠ "" ∧ whitespaceRejectingParse " " = none ∧
    handleSubmit whitespaceRejectingParse () "x" " " [] =
      SubmitAction.create "x" () [] := by
  refine ⟨by decide, by decide, by decide⟩

/-- C6 (amended): an empty trimmed name, or a hyperparameters text that is
non-empty **after trimming** and not parseable as JSON, sets an inline error
and performs no create call; otherwise create is called with the trimmed
name, the parsed hyperparameters object (the empty object when the text
trims to empty), and the current tag list. -/
theorem c6_handle_submit {J : Type} (parseJSON : String → Option J)
    (emptyObj : J) (name hyperparameters : String) (tags : List String) :
    (jsTrim name = "" →
      handleSubmit parseJSON emptyObj name hyperparameters tags =
        SubmitAction.inlineError "Experiment name is required") ∧
    (jsTrim name ≠ "" → jsTrim hyperparameters ≠ "" →
      parseJSON hyperparameters = none →
      handleSubmit parseJSON emptyObj name hyperparameters tags =
        SubmitAction.inlineError "Invalid JSON format for hyperparameters") ∧
    (∀ parsed : J, jsTrim name ≠ "" → jsTrim hyperparameters ≠ "" →
      parseJSON hyperparameters = some parsed →
      handleSubmit parseJSON emptyObj name hyperparameters tags =
        SubmitAction.create (jsTrim name) parsed tags) ∧
    (jsTrim name ≠ "" → jsTrim hyperparameters = "" →
      handleSubmit parseJSON emptyObj name hyperparameters tags =
        SubmitAction.create (jsTrim name) emptyObj tags) := by
  refine ⟨fun h1 => ?_, fun h1 h2 h3 => ?_, fun parsed h1 h2 h3 => ?_,
    fun h1 h2 => ?_⟩
  · rw [handleSubmit, if_pos h1]
  · rw [handleSubmit, if_neg h1, if_pos h2, h3]
  · rw [handleSubmit, if_neg h1, if_pos h2, h3]
  · rw [handleSubmit, if_neg h1, if_neg (by simpa using h2)]

/-- Witness for C6 (amended): a blank name errors; a name with spaces and a
parseable hyperparameters text create with the trimmed name. -/
theorem c6_handle_submit_witness :
    handleSubmit whitespaceRejectingParse () "" "{}" [] =
      SubmitAction.inlineError "Experiment name is required" ∧
    handleSubmit whitespaceRejectingParse () " x " "{}" ["t"] =
      SubmitAction.create "x" () ["t"] := by
  refine ⟨(c6_handle_submit whitespaceRejectingParse () "" "{}" []).1
    (by decide), ?_⟩
  have h := (c6_handle_submit whitespaceRejectingParse () " x " "{}" ["t"]).2.2.1
    () (by decide) (by decide) (by decide)
  rwa [show jsTrim " x " = "x" from by decide] at h

/- ### C2 — dashboard text search -/

/-- An experiment whose id contains the query only up to letter case. -/
def c2Exp : Experiment :=
  { id := "ABC", name := "zzz", status := .running, tags := [],
    created_at := 0 }

/-- C2 counterexample: for the non-empty query `"B"`, the experiment with id
`"ABC"` contains the query as a case-insensitive substring, yet the
dashboard search drops it — the code matches the lowercased query against
the id without lowercasing the id. -/
theorem c2_counterexample :
    jsTrim "B" ≠ "" ∧ ciIncludes c2Exp.id "B" = true ∧
    searchFilter [c2Exp] "B" = [] := by
  refine ⟨by decide, by decide, ?_⟩
  rw [searchFilter, if_pos (by decide)]
  decide

/-- C2 (amended): for every query whose trimmed form is non-empty, the
dashboard search keeps exactly the experiments whose lowercased name
contains the lowercased query, or whose id contains the lowercased query
(the id itself is compared case-sensitively), or one of whose lowercased
tags contains the lowercased query — and it keeps them in their original
relative order (the output is a sublist of the input). -/
theorem c2_search_filter (experiments : List Experiment)
    (searchQuery : String) (h : jsTrim searchQuery ≠ "") :
    (∀ e, e ∈ searchFilter experiments searchQuery ↔
      e ∈ experiments ∧
        (ciIncludes e.name searchQuery = true ∨
         strIncludes e.id (jsToLower searchQuery) = true ∨
         ∃ tag ∈ e.tags, ciIncludes tag searchQuery = true)) ∧
    (searchFilter experiments searchQuery).Sublist experiments := by
  rw [searchFilter, if_pos h]
  refine ⟨fun e => ?_, List.filter_sublist _⟩
  rw [List.mem_filter]
  constructor
  · rintro ⟨hmem, hmatch⟩
    refine ⟨hmem, ?_⟩
    rw [expMatches, Bool.or_assoc, Bool.or_eq_true, Bool.or_eq_true] at hmatch
    rcases hmatch with h1 | h1 | h1
    · exact Or.inl h1
    · exact Or.inr (Or.inl h1)
    · rw [List.any_eq_true] at h1
      obtain ⟨tag, htag, hinc⟩ := h1
      exact Or.inr (Or.inr ⟨tag, htag, hinc⟩)
  · rintro ⟨hmem, hmatch⟩
    refine ⟨hmem, ?_⟩
    rw [expMatches, Bool.or_assoc, Bool.or_eq_true, Bool.or_eq_true]
    rcases hmatch with h1 | h1 | ⟨tag, htag, hinc⟩
    · exact Or.inl h1
    · exact Or.inr (Or.inl h1)
    · exact Or.inr (Or.inr (List.any_eq_true.mpr ⟨tag, htag, hinc⟩))

/-- Witness for C2 (amended) on a concrete list and query. -/
theorem c2_search_filter_witness :
    (expA ∈ searchFilter [expA, expB] "NET" ↔
      expA ∈ [expA, expB] ∧
        (ciIncludes expA.name "NET" = true ∨
         strIncludes expA.id (jsToLower "NET") = true ∨
         ∃ tag ∈ expA.tags, ciIncludes tag "NET" = true)) ∧
    (searchFilter [expA, expB] "NET").Sublist [expA, expB] :=
  ⟨(c2_search_filter [expA, expB] "NET" (by decide)).1 expA,
   (c2_search_filter [expA, expB] "NET" (by decide)).2⟩

/- ### C3 — dashboard sort: permutation, order, stability -/

/-- The per-field order underlying the dashboard sort comparator. -/
def fieldLE (sortBy : SortField) (a b : Experiment) : Prop :=
  match sortBy with
  | .date => a.created_at ≤ b.created_at
  | .status => statusString a.status ≤ statusString b.status
  | .name => a.name ≤ b.name

theorem localeCompare_nonpos {a b : String} :
    localeCompare a b ≤ 0 ↔ a ≤ b := by
  rw [localeCompare]
  rcases lt_trichotomy a b with h | h | h
  · rw [if_pos h]
    exact iff_of_true (by norm_num) h.le
  · subst h
    rw [if_neg (lt_irrefl a), if_neg (lt_irrefl a)]
    exact iff_of_true le_rfl le_rfl
  · rw [if_neg (lt_asymm h), if_pos h]
    exact iff_of_false (by norm_num) (not_le.mpr h)

theorem localeCompare_self (a : String) : localeCompare a a = 0 := by
  rw [localeCompare, if_neg (lt_irrefl a), if_neg (lt_irrefl a)]

theorem localeCompare_flip (a b : String) :
    localeCompare b a = -localeCompare a b := by
  rcases lt_trichotomy a b with h | h | h
  · rw [localeCompare, localeCompare, if_neg (lt_asymm h), if_pos h, if_pos h]
    norm_num
  · subst h
    rw [localeCompare_self]
    norm_num
  · rw [localeCompare, localeCompare, if_pos h, if_neg (lt_asymm h), if_pos h]

theorem fieldComparison_nonpos (f : SortField) (a b : Experiment) :
    fieldComparison f a b ≤ 0 ↔ fieldLE f a b := by
  cases f
  · exact sub_nonpos
  · exact localeCompare_nonpos
  · exact localeCompare_nonpos

theorem fieldComparison_flip (f : SortField) (a b : Experiment) :
    fieldComparison f b a = -(fieldComparison f a b) := by
  cases f
  · show b.created_at - a.created_at = -(a.created_at - b.created_at)
    ring
  · exact localeCompare_flip _ _
  · exact localeCompare_flip _ _

/-- The order realised by the comparator: the chosen field's order for
ascending, its reverse for descending. -/
def sortedRel (sortBy : SortField) (sortOrder : SortOrder)
    (a b : Experiment) : Prop :=
  match sortOrder with
  | .asc => fieldLE sortBy a b
  | .desc => fieldLE sortBy b a

theorem sortLE_iff (f : SortField) (o : SortOrder) (a b : Experiment) :
    sortLE f o a b = true ↔ sortedRel f o a b := by
  cases o
  · rw [sortLE, decide_eq_true_eq]
    exact fieldComparison_nonpos f a b
  · rw [sortLE, decide_eq_true_eq]
    show -(fieldComparison f a b) ≤ 0 ↔ fieldLE f b a
    rw [← fieldComparison_flip f a b]
    exact fieldComparison_nonpos f b a

theorem fieldLE_trans (f : SortField) {a b c : Experiment} :
    fieldLE f a b → fieldLE f b c → fieldLE f a c := by
  cases f
  · exact le_trans
  · exact le_trans
  · exact le_trans

theorem fieldLE_total (f : SortField) (a b : Experiment) :
    fieldLE f a b ∨ fieldLE f b a := by
  cases f
  · exact le_total _ _
  · exact le_total _ _
  · exact le_total _ _

theorem sortLE_trans (f : SortField) (o : SortOrder) (a b c : Experiment) :
    sortLE f o a b → sortLE f o b c → sortLE f o a c := by
  intro h1 h2
  rw [sortLE_iff] at h1 h2 ⊢
  cases o
  · exact fieldLE_trans f h1 h2
  · exact fieldLE_trans f h2 h1

theorem sortLE_total (f : SortField) (o : SortOrder) (a b : Experiment) :
    sortLE f o a b || sortLE f o b a := by
  rw [Bool.or_eq_true, sortLE_iff, sortLE_iff]
  cases o
  · exact fieldLE_total f a b
  · exact fieldLE_total f b a

/-- C3: for every sort field and order, the dashboard sort returns a
permutation of its input, ordered by the chosen field in the chosen
direction, and it is stable — a pair of elements whose comparator value is
zero (equal on the chosen field) keeps its input relative order. -/
theorem c3_sort_stable (sortBy : SortField) (sortOrder : SortOrder)
    (l : List Experiment) :
    (sortExperiments sortBy sortOrder l).Perm l ∧
    (sortExperiments sortBy sortOrder l).Pairwise
      (sortedRel sortBy sortOrder) ∧
    (∀ a b : Experiment, [a, b].Sublist l →
      sortComparator sortBy sortOrder a b = 0 →
      [a, b].Sublist (sortExperiments sortBy sortOrder l)) := by
  refine ⟨List.mergeSort_perm l _, ?_, fun a b hsub hzero => ?_⟩
  · have hs := List.sorted_mergeSort
      (sortLE_trans sortBy sortOrder) (sortLE_total sortBy sortOrder) l
    exact hs.imp fun h => (sortLE_iff _ _ _ _).mp h
  · apply List.pair_sublist_mergeSort (sortLE_trans sortBy sortOrder)
      (sortLE_total sortBy sortOrder) ?_ hsub
    rw [sortLE, hzero]
    decide

/-- A third sample experiment sharing `expA`'s name, to exercise
stability. -/
def expC : Experiment :=
  { id := "e3", name := "resnet", status := .failed, tags := [],
    created_at := 7 }

/-- Witness for C3: sorting two same-name experiments by name keeps their
relative order. -/
theorem c3_sort_stable_witness :
    (sortExperiments .name .asc [expA, expC]).Perm [expA, expC] ∧
    [expA, expC].Sublist (sortExperiments .name .asc [expA, expC]) :=
  ⟨(c3_sort_stable .name .asc [expA, expC]).1,
   (c3_sort_stable .name .asc [expA, expC]).2.2 expA expC
     (List.Sublist.refl _)
     (show localeCompare "resnet" "resnet" = 0 from localeCompare_self _)⟩

/- ### C5 — metrics chart grouping and per-group sort -/

theorem stepLE_trans (a b c : Metric) :
    stepLE a b → stepLE b c → stepLE a c := by
  intro h1 h2
  rw [stepLE, decide_eq_true_eq] at h1 h2 ⊢
  omega

theorem stepLE_total (a b : Metric) : stepLE a b || stepLE b a := by
  rw [Bool.or_eq_true, stepLE, stepLE, decide_eq_true_eq, decide_eq_true_eq]
  omega

theorem any_key_iff (acc : List (String × List Metric)) (k : String) :
    (acc.any fun p => p.1 == k) = true ↔ k ∈ groupKeys acc := by
  rw [groupKeys, List.any_eq_true]
  constructor
  · rintro ⟨p, hp, hpe⟩
    exact List.mem_map.mpr ⟨p, hp, (beq_iff_eq.mp hpe)⟩
  · rintro hk
    obtain ⟨p, hp, hpe⟩ := List.mem_map.mp hk
    exact ⟨p, hp, beq_iff_eq.mpr hpe⟩

theorem groupKeys_addToGroups (acc : List (String × List Metric))
    (m : Metric) :
    groupKeys (addToGroups acc m) =
      if m.metric_name ∈ groupKeys acc then groupKeys acc
      else groupKeys acc ++ [m.metric_name] := by
  rw [addToGroups]
  by_cases h : m.metric_name ∈ groupKeys acc
  · rw [if_pos ((any_key_iff acc m.metric_name).mpr h), if_pos h, groupKeys,
      List.map_map]
    exact List.map_congr_left fun p _ => by
      by_cases hp : p.1 = m.metric_name <;> simp [hp]
  · rw [if_neg (fun hc => h ((any_key_iff acc m.metric_name).mp hc)),
      if_neg h, groupKeys, groupKeys, List.map_append]
    rfl

theorem groupOf_addToGroups (acc : List (String × List Metric)) (m : Metric)
    (name : String) :
    groupOf name (addToGroups acc m) =
      groupOf name acc ++ (if m.metric_name = name then [m] else []) := by
  rw [addToGroups]
  by_cases hmem : (acc.any fun p => p.1 == m.metric_name) = true
  · rw [if_pos hmem, groupOf, List.find?_map]
    have hpred : ((fun p : String × List Metric => p.1 == name) ∘ fun p =>
        if p.1 = m.metric_name then (p.1, p.2 ++ [m]) else p) =
        fun p : String × List Metric => p.1 == name := by
      funext p
      by_cases hp : p.1 = m.metric_name <;> simp [hp]
    rw [hpred]
    cases hfind : acc.find? fun p => p.1 == name with
    | none =>
      have hnone : ∀ p ∈ acc, ¬(p.1 == name) = true :=
        List.find?_eq_none.mp hfind
      by_cases hname : m.metric_name = name
      · exfalso
        obtain ⟨p, hp, hpe⟩ := List.any_eq_true.mp hmem
        exact hnone p hp (by rw [beq_iff_eq] at hpe ⊢; rw [hpe, hname])
      · rw [if_neg hname, groupOf, hfind]
        rfl
    | some pr =>
      have hpr1 := List.find?_some hfind
      simp only [beq_iff_eq] at hpr1
      have hpr : pr.1 = name := hpr1
      by_cases hname : m.metric_name = name
      · have hpm : pr.1 = m.metric_name := by rw [hpr, hname]
        rw [if_pos hname, groupOf, hfind]
        simp [hpm]
      · have hpm : pr.1 ≠ m.metric_name := by
          rw [hpr]
          exact fun he => hname he.symm
        rw [if_neg hname, groupOf, hfind]
        simp [hpm]
  · rw [if_neg hmem, groupOf, groupOf, List.find?_append]
    by_cases hname : m.metric_name = name
    · have hfind : (acc.find? fun p => p.1 == name) = none := by
        rw [List.find?_eq_none]
        intro p hp hpe
        exact hmem (List.any_eq_true.mpr ⟨p, hp, by
          rw [beq_iff_eq] at hpe ⊢; rw [hpe, hname]⟩)
      rw [hfind, Option.none_or, if_pos hname]
      simp [hname]
    · have hsingle : (List.find? (fun p => p.1 == name)
          [(m.metric_name, [m])]) = none := by
        simp [hname]
      rw [hsingle, Option.or_none, if_neg hname, List.append_nil]

theorem groupOf_foldl (ms : List Metric) :
    ∀ (acc : List (String × List Metric)) (name : String),
      groupOf name (ms.foldl addToGroups acc) =
        groupOf name acc ++ ms.filter (fun m => m.metric_name == name) := by
  induction ms with
  | nil =>
    intro acc name
    simp
  | cons m t ih =>
    intro acc name
    rw [List.foldl_cons, ih, groupOf_addToGroups, List.filter_cons]
    by_cases h : m.metric_name = name
    · simp [h, List.append_assoc]
    · simp [h]

theorem groupOf_metricsByName (ms : List Metric) (name : String) :
    groupOf name (metricsByName ms) =
      ms.filter (fun m => m.metric_name == name) := by
  rw [metricsByName, groupOf_foldl]
  rfl

theorem groupKeys_nodup_addToGroups (acc : List (String × List Metric))
    (m : Metric) (h : (groupKeys acc).Nodup) :
    (groupKeys (addToGroups acc m)).Nodup := by
  rw [groupKeys_addToGroups]
  by_cases hm : m.metric_name ∈ groupKeys acc
  · rwa [if_pos hm]
  · rw [if_neg hm, List.nodup_append]
    exact ⟨h, List.nodup_singleton _,
      fun x hx hx1 => hm (by rwa [List.mem_singleton.mp hx1] at hx)⟩

theorem groupKeys_metricsByName_nodup (ms : List Metric) :
    (groupKeys (metricsByName ms)).Nodup := by
  rw [metricsByName]
  have h : ∀ acc : List (String × List Metric), (groupKeys acc).Nodup →
      (groupKeys (ms.foldl addToGroups acc)).Nodup := by
    induction ms with
    | nil => exact fun acc h => h
    | cons m t ih =>
      intro acc h
      rw [List.foldl_cons]
      exact ih _ (groupKeys_nodup_addToGroups acc m h)
  exact h [] (by simp [groupKeys])

theorem groupKeys_subset_addToGroups (acc : List (String × List Metric))
    (m : Metric) (k : String) (hk : k ∈ groupKeys acc) :
    k ∈ groupKeys (addToGroups acc m) := by
  rw [groupKeys_addToGroups]
  split
  · exact hk
  · exact List.mem_append_left _ hk

theorem self_mem_groupKeys_addToGroups (acc : List (String × List Metric))
    (m : Metric) : m.metric_name ∈ groupKeys (addToGroups acc m) := by
  rw [groupKeys_addToGroups]
  split
  · assumption
  · exact List.mem_append_right _ (by simp)

theorem groupKeys_subset_foldl (ms : List Metric) :
    ∀ (acc : List (String × List Metric)) (k : String),
      k ∈ groupKeys acc → k ∈ groupKeys (ms.foldl addToGroups acc) := by
  induction ms with
  | nil => exact fun acc k hk => hk
  | cons m t ih =>
    intro acc k hk
    rw [List.foldl_cons]
    exact ih _ _ (groupKeys_subset_addToGroups acc m k hk)

theorem mem_groupKeys_foldl (ms : List Metric) :
    ∀ (acc : List (String × List Metric)) (m : Metric), m ∈ ms →
      m.metric_name ∈ groupKeys (ms.foldl addToGroups acc) := by
  induction ms with
  | nil =>
    intro _ _ h
    cases h
  | cons x t ih =>
    intro acc m hm
    rw [List.foldl_cons]
    rcases List.mem_cons.mp hm with h | h
    · subst h
      exact groupKeys_subset_foldl t _ _ (self_mem_groupKeys_addToGroups acc m)
    · exact ih _ m h

theorem find?_eq_of_mem_of_nodupKeys
    {groups : List (String × List Metric)} {g : String × List Metric}
    (hg : g ∈ groups) (hnd : (groupKeys groups).Nodup) :
    (groups.find? fun p => p.1 == g.1) = some g := by
  induction groups with
  | nil => cases hg
  | cons q t ih =>
    rw [groupKeys, List.map_cons, List.nodup_cons] at hnd
    rcases List.mem_cons.mp hg with h | h
    · subst h
      exact List.find?_cons_of_pos _ (by simp)
    · have hne : ¬(q.1 == g.1) = true := by
        rw [beq_iff_eq]
        exact fun he => hnd.1 (he ▸ List.mem_map.mpr ⟨g, h, rfl⟩)
      rw [show (List.find? (fun p => p.1 == g.1) (q :: t)) =
          List.find? (fun p => p.1 == g.1) t from
        List.find?_cons_of_neg t hne]
      exact ih h hnd.2

/-- C5: the chart groups the metrics list by `metric_name` — group keys are
distinct, a metric belongs to a group exactly when it is an input metric
with that group's name (so each metric lands in exactly one group), every
input metric's name is a key — and each group's chart data is a
permutation of the group sorted by step in ascending order. -/
theorem c5_metrics_grouping (metrics : List Metric) :
    (groupKeys (metricsByName metrics)).Nodup ∧
    (∀ g ∈ metricsByName metrics, ∀ m : Metric,
      m ∈ g.2 ↔ m ∈ metrics ∧ m.metric_name = g.1) ∧
    (∀ m ∈ metrics, m.metric_name ∈ groupKeys (metricsByName metrics)) ∧
    (∀ g ∈ metricsByName metrics,
      (sortByStep g.2).Perm g.2 ∧
      (chartData g.2).Pairwise (fun a b => a.1 ≤ b.1)) := by
  refine ⟨groupKeys_metricsByName_nodup metrics, ?_, ?_, ?_⟩
  · intro g hg m
    have hfind := find?_eq_of_mem_of_nodupKeys hg
      (groupKeys_metricsByName_nodup metrics)
    have hchar : g.2 = metrics.filter fun x => x.metric_name == g.1 := by
      have h := groupOf_metricsByName metrics g.1
      rw [groupOf, hfind] at h
      simpa using h
    rw [hchar, List.mem_filter, beq_iff_eq]
  · intro m hm
    rw [metricsByName]
    exact mem_groupKeys_foldl metrics [] m hm
  · intro g hg
    refine ⟨List.mergeSort_perm _ _, ?_⟩
    rw [chartData, List.pairwise_map]
    have hs := List.sorted_mergeSort stepLE_trans stepLE_total g.2
    refine hs.imp fun {a b} h => ?_
    rw [stepLE, decide_eq_true_eq] at h
    show a.step ≤ b.step
    omega

/-- Sample metric: loss at step 2. -/
def mLoss2 : Metric :=
  { id := 1, experiment_id := "e1", step := 2, metric_name := "loss",
    value := 0 }

/-- Sample metric: accuracy at step 1. -/
def mAcc1 : Metric :=
  { id := 2, experiment_id := "e1", step := 1, metric_name := "acc",
    value := 0 }

/-- Sample metric: loss at step 1, logged after the step-2 point. -/
def mLoss1 : Metric :=
  { id := 3, experiment_id := "e1", step := 1, metric_name := "loss",
    value := 0 }

/-- A sample metrics list with two names, out of step order. -/
def c5Metrics : List Metric := [mLoss2, mAcc1, mLoss1]

/-- Witness for C5 on a concrete metrics list. -/
theorem c5_metrics_grouping_witness :
    (groupKeys (metricsByName c5Metrics)).Nodup ∧
    mLoss1.metric_name ∈ groupKeys (metricsByName c5Metrics) :=
  ⟨(c5_metrics_grouping c5Metrics).1,
   (c5_metrics_grouping c5Metrics).2.2.1 mLoss1
     (List.mem_cons_of_mem _ (List.mem_cons_of_mem _
       (List.mem_cons_self _ _)))⟩

/- ### C4 — metric summary: latest by step, ties to the last logged -/

theorem maxStep_cons (acc q : MetricPoint) (t : List MetricPoint) :
    maxStep acc (q :: t) =
      maxStep (if acc.step ≤ q.step then q else acc) t := by
  have hinit : Max.max acc.step q.step =
      (if acc.step ≤ q.step then q else acc).step := by
    split
    · rename_i h
      exact max_eq_right h
    · rename_i h
      exact max_eq_left (le_of_not_le h)
  rw [maxStep, List.foldl_cons, hinit, maxStep]

theorem le_maxStep_base (acc : MetricPoint) (l : List MetricPoint) :
    acc.step ≤ maxStep acc l := by
  induction l generalizing acc with
  | nil => exact le_refl _
  | cons q t ih =>
    rw [maxStep_cons]
    refine le_trans ?_ (ih _)
    split
    · rename_i h
      exact h
    · exact le_refl _

theorem mem_le_maxStep (acc : MetricPoint) (l : List MetricPoint) :
    ∀ x ∈ l, x.step ≤ maxStep acc l := by
  induction l generalizing acc with
  | nil =>
    intro x hx
    cases hx
  | cons q t ih =>
    intro x hx
    rw [maxStep_cons]
    rcases List.mem_cons.mp hx with h | h
    · subst h
      refine le_trans ?_ (le_maxStep_base _ t)
      split
      · exact le_refl _
      · rename_i hq
        exact le_of_not_le hq
    · exact ih _ x h

theorem maxStep_eq_base_or_mem (acc : MetricPoint) (l : List MetricPoint) :
    maxStep acc l = acc.step ∨ ∃ x ∈ l, maxStep acc l = x.step := by
  induction l generalizing acc with
  | nil => exact Or.inl rfl
  | cons q t ih =>
    rw [maxStep_cons]
    rcases ih (if acc.step ≤ q.step then q else acc) with h | ⟨x, hx, he⟩
    · rw [h]
      split
      · exact Or.inr ⟨q, List.mem_cons_self _ _, rfl⟩
      · exact Or.inl rfl
    · exact Or.inr ⟨x, List.mem_cons_of_mem _ hx, he⟩

theorem latestPoint_cons (acc q : MetricPoint) (t : List MetricPoint) :
    latestPoint acc (q :: t) =
      latestPoint (if acc.step ≤ q.step then q else acc) t := rfl

theorem latestPoint_step (acc : MetricPoint) (l : List MetricPoint) :
    (latestPoint acc l).step = maxStep acc l := by
  induction l generalizing acc with
  | nil => rfl
  | cons q t ih =>
    rw [latestPoint_cons, maxStep_cons]
    exact ih _

theorem find?_none_maxStep (acc : MetricPoint) (t : List MetricPoint)
    (hfind : t.reverse.find?
      (fun r => decide (maxStep acc t ≤ r.step)) = none) :
    maxStep acc t = acc.step := by
  rcases maxStep_eq_base_or_mem acc t with h | ⟨x, hx, he⟩
  · exact h
  · exfalso
    have hx' := List.find?_eq_none.mp hfind x (List.mem_reverse.mpr hx)
    apply hx'
    rw [he]
    simp

theorem lastAtMaxStep_cons (acc q : MetricPoint) (t : List MetricPoint) :
    lastAtMaxStep acc (q :: t) =
      lastAtMaxStep (if acc.step ≤ q.step then q else acc) t := by
  rw [lastAtMaxStep, lastAtMaxStep, maxStep_cons]
  rw [List.reverse_cons, List.reverse_cons, List.reverse_cons]
  rw [List.find?_append, List.find?_append, List.find?_append]
  cases hfind : t.reverse.find? (fun r =>
      decide (maxStep (if acc.step ≤ q.step then q else acc) t ≤ r.step)) with
  | some x => rfl
  | none =>
    rw [Option.none_or, Option.none_or]
    have hM := find?_none_maxStep _ t hfind
    by_cases hqa : acc.step ≤ q.step
    · rw [if_pos hqa] at hM ⊢
      have hq : (List.find? (fun r => decide (maxStep q t ≤ r.step)) [q]) =
          some q := List.find?_cons_of_pos _ (by rw [hM]; simp)
      rw [hq]
      rfl
    · rw [if_neg hqa] at hM ⊢
      have hqf : (List.find? (fun r => decide (maxStep acc t ≤ r.step)) [q]) =
          none := by
        rw [List.find?_eq_none]
        intro x hx
        rw [List.mem_singleton.mp hx]
        simp only [decide_eq_true_eq, hM]
        exact hqa
      have haf : (List.find? (fun r => decide (maxStep acc t ≤ r.step))
          [acc]) = some acc := List.find?_cons_of_pos _ (by rw [hM]; simp)
      rw [hqf, Option.none_or, haf]

theorem latestPoint_eq_lastAtMaxStep (acc : MetricPoint)
    (l : List MetricPoint) :
    latestPoint acc l = lastAtMaxStep acc l := by
  induction l generalizing acc with
  | nil =>
    have hsingle : (([acc] : List MetricPoint).find?
        (fun r => decide (maxStep acc [] ≤ r.step))) = some acc :=
      List.find?_cons_of_pos _ (by simp [maxStep])
    rw [lastAtMaxStep]
    simp only [List.reverse_cons, List.reverse_nil, List.nil_append]
    rw [hsingle]
    rfl
  | cons q t ih =>
    rw [latestPoint_cons, ih, lastAtMaxStep_cons]

/-- C4: for every metric log and metric name with at least one point,
`summarize` reports `latest` as the value of the last logged point whose
step attains the highest step for that name (`lastAtMaxStep`) — the value
at the highest step, ties broken by insertion order with the last logged
point winning — where the highest step bounds every logged step. -/
theorem c4_summarize_latest (logged : List MetricPoint) (name : String)
    (p : MetricPoint) (rest : List MetricPoint)
    (h : pointsFor logged name = p :: rest) :
    (summarize logged name).map (·.latest) =
      some (lastAtMaxStep p rest).value ∧
    (lastAtMaxStep p rest).step = maxStep p rest ∧
    p.step ≤ maxStep p rest ∧
    ∀ x ∈ rest, x.step ≤ maxStep p rest := by
  refine ⟨?_, ?_, le_maxStep_base p rest, mem_le_maxStep p rest⟩
  · have hsum : summarize logged name = some
        { metric_name := name
          min := rest.foldl (fun m q => Min.min m q.value) p.value
          max := rest.foldl (fun m q => Max.max m q.value) p.value
          avg := ((p :: rest).map (·.value)).sum / ((p :: rest).length : Rat)
          latest := (latestPoint p rest).value } := by
      rw [summarize, h]
    rw [hsum]
    show some ((latestPoint p rest).value) =
      some ((lastAtMaxStep p rest).value)
    rw [latestPoint_eq_lastAtMaxStep]
  · rw [← latestPoint_eq_lastAtMaxStep]
    exact latestPoint_step p rest

/-- The spec's worked example: loss 0.5 logged at step 1, then loss 0.3 at
step 2. -/
def lossLog : List MetricPoint :=
  [{ step := 1, metric_name := "loss", value := 1/2 },
   { step := 2, metric_name := "loss", value := 3/10 }]

/-- Witness for C4 on the spec's example: summarizing yields latest = 0.3,
min = 0.3, max = 0.5, avg = 0.4. -/
theorem c4_summarize_latest_witness :
    summarize lossLog "loss" = some
      { metric_name := "loss", min := 3/10, max := 1/2, avg := 2/5,
        latest := 3/10 } ∧
    (summarize lossLog "loss").map (·.latest) = some ((3 : Rat)/10) := by
  have hpts : pointsFor lossLog "loss" =
      [{ step := 1, metric_name := "loss", value := 1/2 },
       { step := 2, metric_name := "loss", value := 3/10 }] := rfl
  constructor
  · rw [summarize, hpts]
    simp only [Option.some.injEq, MetricsSummary.mk.injEq, List.foldl_cons,
      List.foldl_nil, List.map_cons, List.map_nil, List.sum_cons,
      List.sum_nil, List.length_cons, List.length_nil, latestPoint]
    norm_num [min_def, max_def]
  · have h := (c4_summarize_latest lossLog "loss" _ _ hpts).1
    rw [h]
    rfl
